import Mathlib

/-!
Verification development for the OpcFactory simulated factory
(src/simulated_factory/factory_components.py).

The factory is a salabim discrete-event simulation.  We shallowly embed the
domain processes (Machine.process, Part.process, OpcServer.process,
PartGenerator.process) as explicit continuation-passing state machines over a
small event scheduler that mirrors salabim's cooperative single-threaded
semantics: a sorted pending-event list (keyed by time, FIFO tie-break for
equal times), a current simulated time, and one process fired per step.
Simulated time is embedded as the integers: the Python code carries time in
floats, but every time-valued quantity of this program is generated from the
integer durations of the production plans and the integer holds (1 and 3), so
all times stay integral; ℤ keeps the arithmetic exact.

Process embedding notes:
  * `Machine.process` is a loop with two suspension points (the `passivate`
    while its queue is empty / the two `hold`s).  Its continuation is the
    program counter `MachinePC`: `.check` is the top of the `while True`
    loop (the queue-emptiness guard is re-evaluated whenever it resumes
    there), `.procDone` is the resume point after `hold(processing time)`.
  * `Part.process` iterates over its remaining `machining_sequence`; its
    continuation is the remaining list itself (the suspension point is the
    `passivate` at the end of each loop body).
  * `OpcServer.process` (telemetry publisher) has a single suspension point,
    `hold(1)`; one firing performs one full iteration over all machines.
  * `PartGenerator.process` creates Parts and never suspends; it is embedded
    as the pure function `genParts` on the production plan.

Queues hold part indices (positions in the global part list); `enter` appends
at the tail and `pop` removes the head, as in salabim's FIFO `Queue`.
-/

/-- Identifier of a schedulable process in the simulation. -/
inductive PId where
  | machine (i : ℕ)
  | part (i : ℕ)
  | publisher
deriving DecidableEq

/-- A pending wake-up in the scheduler's event list. -/
structure Event where
  time : ℤ
  pid : PId
deriving DecidableEq

/-- Scheduling status of a process (salabim component status, restricted to
the statuses the embedded processes actually take between steps). -/
inductive SStatus where
  | scheduled
  | passive
  | terminated
deriving DecidableEq

/-- Program counter of a Machine's process loop: `.check` is the top of the
`while True` loop (about to evaluate the queue-emptiness guard), `.procDone`
is the resume point right after `hold(current_part.current_processing_time)`. -/
inductive MachinePC where
  | check
  | procDone
deriving DecidableEq

/-- State of one `Machine` component (fields as in `Machine.__init__`).
`firstStart` is a ghost field recording the simulated time of the machine's
first cycle start; it is written exactly when the machine starts a cycle,
never read by the step functions, and exists only so that specifications can
speak about elapsed time since the first cycle start. -/
structure MachineState where
  machine_id : ℕ
  machine_queue : List ℕ
  parts : ℕ
  cycle_time_start : ℤ
  cycle_time : ℤ
  operating_time : ℤ
  machine_status : ℕ
  current_part : Option ℕ
  pc : MachinePC
  sstatus : SStatus
  firstStart : Option ℤ
deriving DecidableEq

/-- State of one `Part` component.  `machining_sequence` holds the remaining
routing steps (machine id, processing duration). -/
structure PartState where
  part_name : String
  part_family_number : ℕ
  part_number : ℕ
  machining_sequence : List (ℕ × ℤ)
  current_processing_time : ℤ
  sstatus : SStatus
deriving DecidableEq

/-- Observable events recorded in the run trace. -/
inductive TEvent where
  | enterQueue (part mach : ℕ)
  | checkQueue (mach : ℕ)
  | startCycle (mach part : ℕ)
  | endCycle (mach part partsCount : ℕ) (ct : ℤ)
  | terminated (part : ℕ)
  | publishRow (machine_id parts : ℕ) (cycle_time operating_time : ℤ)
deriving DecidableEq

/-- Fatal simulation errors (spec section 7): `emptyPop` models
`EmptyQueueError` (a pop attempted on an empty queue), `badIndex` models an
out-of-range lookup (a Python `IndexError` / attribute error on `None`). -/
inductive SimError where
  | emptyPop
  | badIndex
deriving DecidableEq

/-- Global state of the embedded simulation. -/
structure SimState where
  now : ℤ
  events : List Event
  machines : List MachineState
  parts : List PartState
  trace : List (ℤ × TEvent)
  err : Option SimError
deriving DecidableEq

/-- Insert an event into the time-sorted pending list, after all events with
an earlier-or-equal time (salabim's stable FIFO tie-break for equal times). -/
def insertEvent (e : Event) : List Event → List Event
  | [] => [e]
  | x :: xs => if x.time ≤ e.time then x :: insertEvent e xs else e :: x :: xs

/-- Set the scheduling status of part `p` (used by `Machine.process` when it
activates the completed part). -/
def setPartSStatus (ps : List PartState) (p : ℕ) (st : SStatus) : List PartState :=
  match ps[p]? with
  | none => ps
  | some pa => ps.set p { pa with sstatus := st }

/-- One resume of `Machine.process` (factory_components.py lines 279-320).
At `.check` it evaluates the `while len(self.machine_queue) == 0` guard:
if the queue is empty it passivates, otherwise it pops the head part, marks
itself busy, records the cycle start and holds for the part's processing
time.  At `.procDone` it books the finished cycle (status idle, part count,
cycle time by subtraction, operating time), activates the finished part and
holds 3 time units of turnaround before re-checking its queue. -/
def machineFire (i : ℕ) (s : SimState) : SimState :=
  match s.machines[i]? with
  | none => { s with err := some .badIndex }
  | some m =>
    match m.pc with
    | .check =>
      if m.machine_queue.isEmpty then
        { s with
          machines := s.machines.set i { m with sstatus := .passive }
          trace := s.trace ++ [(s.now, TEvent.checkQueue i)] }
      else
        match m.machine_queue with
        | [] =>
          { s with
            err := some .emptyPop
            trace := s.trace ++ [(s.now, TEvent.checkQueue i)] }
        | p :: qrest =>
          match s.parts[p]? with
          | none =>
            { s with
              err := some .badIndex
              trace := s.trace ++ [(s.now, TEvent.checkQueue i)] }
          | some pa =>
            { s with
              machines := s.machines.set i
                { m with
                  machine_queue := qrest
                  current_part := some p
                  machine_status := 1
                  cycle_time_start := s.now
                  cycle_time := 0
                  pc := .procDone
                  sstatus := .scheduled
                  firstStart := some (m.firstStart.getD s.now) }
              events := insertEvent ⟨s.now + pa.current_processing_time, .machine i⟩ s.events
              trace := s.trace ++ [(s.now, TEvent.checkQueue i), (s.now, TEvent.startCycle i p)] }
    | .procDone =>
      match m.current_part with
      | none => { s with err := some .badIndex }
      | some p =>
        { s with
          machines := s.machines.set i
            { m with
              machine_status := 0
              parts := m.parts + 1
              cycle_time := s.now - m.cycle_time_start
              operating_time := m.operating_time + (s.now - m.cycle_time_start)
              current_part := none
              pc := .check
              sstatus := .scheduled }
          parts := setPartSStatus s.parts p .scheduled
          events := insertEvent ⟨s.now + 3, .machine i⟩
                      (insertEvent ⟨s.now, .part p⟩ s.events)
          trace := s.trace ++
            [(s.now, .endCycle i p (m.parts + 1) (s.now - m.cycle_time_start))] }

/-- One resume of `Part.process` (factory_components.py lines 361-374).
With routing steps remaining it takes the next `(machine id, duration)`,
enters the target machine's queue, activates that machine if it is passive,
and passivates itself; with no step remaining its control flow ends and the
component terminates. -/
def partFire (i : ℕ) (s : SimState) : SimState :=
  match s.parts[i]? with
  | none => { s with err := some .badIndex }
  | some p =>
    match p.machining_sequence with
    | [] =>
      { s with
        parts := s.parts.set i { p with sstatus := .terminated }
        trace := s.trace ++ [(s.now, .terminated i)] }
    | (mid, d) :: rest =>
      match s.machines[mid]? with
      | none => { s with err := some .badIndex }
      | some m =>
        let p' : PartState :=
          { p with
            machining_sequence := rest
            current_processing_time := d
            sstatus := .passive }
        let mEntered : MachineState := { m with machine_queue := m.machine_queue ++ [i] }
        let mFinal : MachineState :=
          if m.sstatus = .passive then { mEntered with sstatus := .scheduled } else mEntered
        let evs :=
          if m.sstatus = .passive then insertEvent ⟨s.now, .machine mid⟩ s.events else s.events
        { s with
          parts := s.parts.set i p'
          machines := s.machines.set mid mFinal
          events := evs
          trace := s.trace ++ [(s.now, .enterQueue i mid)] }

/-- Published telemetry snapshot for one machine: the row
`[machine_id, part_count, cycle_time, operating_time]` written to the OPC
variables each publisher iteration. -/
structure Snapshot where
  machine_id : ℕ
  parts : ℕ
  cycle_time : ℤ
  operating_time : ℤ
deriving DecidableEq

/-- The per-machine body of the publisher loop (factory_components.py lines
217-236): returns the snapshot forwarded to the OPC server together with the
(possibly) updated machine.  If and only if the machine is busy
(`machine_status == 1`) the cycle time is recomputed as
`now - cycle_time_start`, written back to the machine, and added to the
operating time that is published (the stored `operating_time` counter is not
written).  The Python wraps the published times in `float(round(x, 2))`,
which is the identity on the integer-valued times of this embedding. -/
def pubMachineSnapshot (now : ℤ) (m : MachineState) : Snapshot × MachineState :=
  let cycle_time := m.cycle_time
  let operating_time := m.operating_time
  if m.machine_status = 1 then
    let ct := now - m.cycle_time_start
    (⟨m.machine_id, m.parts, ct, operating_time + ct⟩,
      { m with cycle_time := ct })
  else
    (⟨m.machine_id, m.parts, cycle_time, operating_time⟩, m)

/-- One resume of `OpcServer.process` (the telemetry publisher): one full
iteration over all machines, forwarding each snapshot to the sink (recorded
in the trace), followed by `hold(1)`. -/
def pubFire (s : SimState) : SimState :=
  let res := s.machines.map (pubMachineSnapshot s.now)
  { s with
    machines := res.map Prod.snd
    trace := s.trace ++ res.map (fun r =>
      (s.now, TEvent.publishRow r.1.machine_id r.1.parts r.1.cycle_time r.1.operating_time))
    events := insertEvent ⟨s.now + 1, .publisher⟩ s.events }

/-- Dispatch a fired event to the owning process's resume function. -/
def dispatch (s : SimState) : PId → SimState
  | .machine i => machineFire i s
  | .part i => partFire i s
  | .publisher => pubFire s

/-- One scheduler step: pop the earliest pending event (head of the sorted
list), advance the clock to its time, and resume the owning process.  A
state with a recorded error, or with no pending events, is a fixpoint. -/
def stepSim (s : SimState) : SimState :=
  if s.err.isSome then s
  else
    match s.events with
    | [] => s
    | e :: rest => dispatch { s with now := e.time, events := rest } e.pid

/-- Run `n` scheduler steps. -/
def runN (s : SimState) : ℕ → SimState
  | 0 => s
  | n + 1 => runN (stepSim s) n

/-- A machine as created by `create_machining_units` /`Machine.__init__`. -/
def initMachine (i : ℕ) : MachineState :=
  { machine_id := i
    machine_queue := []
    parts := 0
    cycle_time_start := 0
    cycle_time := 0
    operating_time := 0
    machine_status := 0
    current_part := none
    pc := .check
    sstatus := .scheduled
    firstStart := none }

/-- A part as created by `Part.__init__`, scheduled to start its process. -/
def initPart (name : String) (fam num : ℕ) (seq : List (ℕ × ℤ)) : PartState :=
  { part_name := name
    part_family_number := fam
    part_number := num
    machining_sequence := seq
    current_processing_time := 0
    sstatus := .scheduled }

/-- Scenario A of the spec: one Machine (id 0), one Part with routing
`[(0, 2)]`, both starting at simulated time 0 (machine first, as components
are scheduled in creation order). -/
def scenarioA : SimState :=
  { now := 0
    events := [⟨0, .machine 0⟩, ⟨0, .part 0⟩]
    machines := [initMachine 0]
    parts := [initPart "Part 0" 100000 1000000 [(0, 2)]]
    trace := []
    err := none }

/-- Scenario C of the spec: one Machine (id 0), two Parts routed to it with
durations 2 and 3, entering the queue at t=0 in that order. -/
def scenarioC : SimState :=
  { now := 0
    events := [⟨0, .machine 0⟩, ⟨0, .part 0⟩, ⟨0, .part 1⟩]
    machines := [initMachine 0]
    parts := [initPart "Part 0" 100000 1000000 [(0, 2)],
              initPart "Part 0" 100000 1000001 [(0, 3)]]
    trace := []
    err := none }

/-- Well-formedness of one machine at current simulated time `now`: the
continuation determines the status and occupant fields, and the accumulated
operating time is bounded by the elapsed time since the machine's first
cycle start (`firstStart`). -/
def MInv (now : ℤ) (m : MachineState) : Prop :=
  m.cycle_time_start ≤ now ∧
  0 ≤ m.operating_time ∧
  (m.pc = .procDone →
      m.machine_status = 1 ∧ m.current_part.isSome ∧
      (∃ t0, m.firstStart = some t0 ∧ t0 ≤ m.cycle_time_start ∧
        m.operating_time ≤ m.cycle_time_start - t0)) ∧
  (m.pc = .check →
      m.machine_status = 0 ∧ m.current_part = none ∧
      (m.firstStart = none → m.operating_time = 0) ∧
      (∀ t0, m.firstStart = some t0 → t0 ≤ now ∧ m.operating_time ≤ now - t0))

/-- Well-formedness of one part: all processing durations are nonnegative. -/
def PInv (p : PartState) : Prop :=
  0 ≤ p.current_processing_time ∧ ∀ st ∈ p.machining_sequence, 0 ≤ st.2

/-- Global simulation invariant: pending events are in the future and
time-sorted, and every machine and part is well-formed. -/
def SimInv (s : SimState) : Prop :=
  (∀ e ∈ s.events, s.now ≤ e.time) ∧
  s.events.Pairwise (fun a b => a.time ≤ b.time) ∧
  (∀ m ∈ s.machines, MInv s.now m) ∧
  (∀ p ∈ s.parts, PInv p)

/-- The machine fields named by the frame conditions: the counters, status
and occupant that `Machine.process` owns (everything except the live
`cycle_time` cache, the queue and the scheduling metadata). -/
def machineCore (m : MachineState) : ℕ × ℤ × ℤ × ℕ × Option ℕ :=
  (m.parts, m.cycle_time_start, m.operating_time, m.machine_status, m.current_part)

/-- One entry of the master production plan:
`[part name, part family number, quantity, machining sequence]`. -/
structure PlanEntry where
  part_name : String
  part_family_number : ℕ
  quantity : ℕ
  machining_sequence : List (ℕ × ℤ)
deriving DecidableEq

/-- Fuel-driven recursion for `numDigits`; the fuel bounds the recursion
depth and `numDigits` always supplies enough. -/
def numDigitsCore (fuel n : ℕ) : ℕ :=
  match fuel with
  | 0 => 1
  | fuel + 1 => if n < 10 then 1 else numDigitsCore fuel (n / 10) + 1

/-- Number of decimal digits of `n`, i.e. the length of Python's `str(n)`. -/
def numDigits (n : ℕ) : ℕ := numDigitsCore n n

/-- The identity `PartGenerator.process` derives for the `k`-th part of
family `f`: `int(str(f) + str(k))`, i.e. `f` shifted left by the decimal
width of `k`, plus `k`. -/
def partId (f k : ℕ) : ℕ := f * 10 ^ numDigits k + k

/-- The Parts instantiated by `PartGenerator.process` for a production plan:
for each plan entry, `quantity` parts in index order, each with its derived
identity and the entry's machining sequence. -/
def genParts (plan : List PlanEntry) : List PartState :=
  plan.flatMap fun e =>
    (List.range e.quantity).map fun k =>
      initPart e.part_name e.part_family_number
        (partId e.part_family_number k) e.machining_sequence

/-- A production plan on which the derived part identities collide across
entries: part 10 of family 1 and part 0 of family 11 both get identity 110. -/
def collidingPlan : List PlanEntry :=
  [⟨"Part A", 1, 11, []⟩, ⟨"Part B", 11, 1, []⟩]

/-- A machine mid-cycle (busy): it started its current cycle at t=0 and has
no completed cycle yet.  Used by the publisher counterexamples. -/
def busyMachine : MachineState :=
  { initMachine 0 with
    machine_status := 1
    current_part := some 0
    pc := .procDone
    firstStart := some 0 }

/-- A state whose only pending event is a publisher wake-up at t=1 while
machine 0 is mid-cycle. -/
def pubStepState : SimState :=
  { now := 0
    events := [⟨1, .publisher⟩]
    machines := [busyMachine]
    parts := [initPart "Part 0" 100000 1000000 []]
    trace := []
    err := none }

/-- A state where machine 0 is passive with an empty queue and part 0 is
about to run the first step of its routing.  Used as a concrete input for
the Part-process theorems. -/
def partStepState : SimState :=
  { now := 0
    events := []
    machines := [{ initMachine 0 with sstatus := .passive }]
    parts := [initPart "Part 0" 100000 1000000 [(0, 2)]]
    trace := []
    err := none }

/-- C1: Scenario A — one Machine (id 0, turnaround 3), one Part with routing
`[(0, 2)]`, both starting at t=0.  The Part enters the machine's queue at
t=0, the Machine starts processing at t=0 and finishes its hold at t=2, at
which point its parts counter is 1 and its cycle_time is 2, the Part
terminates at t=2, and the Machine next re-checks its queue at t=5 after the
turnaround hold (every queue re-check happens at t=0 or t=5). -/
theorem scenarioA_behavior :
    ((0 : ℤ), TEvent.enterQueue 0 0) ∈ (runN scenarioA 10).trace ∧
    ((0 : ℤ), TEvent.startCycle 0 0) ∈ (runN scenarioA 10).trace ∧
    ((2 : ℤ), TEvent.endCycle 0 0 1 2) ∈ (runN scenarioA 10).trace ∧
    ((2 : ℤ), TEvent.terminated 0) ∈ (runN scenarioA 10).trace ∧
    ((5 : ℤ), TEvent.checkQueue 0) ∈ (runN scenarioA 10).trace ∧
    (∀ pr ∈ (runN scenarioA 10).trace,
      pr.2 = TEvent.checkQueue 0 → pr.1 = 0 ∨ pr.1 = 5) ∧
    (runN scenarioA 10).machines.map (fun m => (m.parts, m.cycle_time)) = [(1, 2)] := by
  decide

/-- C2: Scenario C — one Machine (id 0, turnaround 3), two Parts routed to
it with durations 2 and 3, entering the queue at t=0 in that order.  Service
is first-come-first-served: the first Part's cycle starts at t=0 and
finishes at t=2, the second Part's cycle starts at t=5 (after the turnaround
hold) and finishes at t=8. -/
theorem scenarioC_fcfs :
    ((0 : ℤ), TEvent.enterQueue 0 0) ∈ (runN scenarioC 14).trace ∧
    ((0 : ℤ), TEvent.enterQueue 1 0) ∈ (runN scenarioC 14).trace ∧
    ((0 : ℤ), TEvent.startCycle 0 0) ∈ (runN scenarioC 14).trace ∧
    ((2 : ℤ), TEvent.endCycle 0 0 1 2) ∈ (runN scenarioC 14).trace ∧
    ((5 : ℤ), TEvent.startCycle 0 1) ∈ (runN scenarioC 14).trace ∧
    ((8 : ℤ), TEvent.endCycle 0 1 2 3) ∈ (runN scenarioC 14).trace := by
  decide

/-- Membership in the pending list after an insertion. -/
theorem mem_insertEvent {a e : Event} {l : List Event} :
    a ∈ insertEvent e l ↔ a = e ∨ a ∈ l := by
  induction l with
  | nil => simp [insertEvent]
  | cons x xs ih =>
    rw [insertEvent]
    split
    · simp only [List.mem_cons, ih]
      constructor
      · intro h
        tauto
      · intro h
        tauto
    · simp only [List.mem_cons]

/-- Insertion keeps the pending list time-sorted. -/
theorem pairwise_insertEvent {e : Event} {l : List Event}
    (h : l.Pairwise (fun a b => a.time ≤ b.time)) :
    (insertEvent e l).Pairwise (fun a b => a.time ≤ b.time) := by
  induction l with
  | nil => simp [insertEvent]
  | cons x xs ih =>
    rw [insertEvent]
    rcases List.pairwise_cons.mp h with ⟨hx, hxs⟩
    split
    · rename_i hle
      refine List.pairwise_cons.mpr ⟨?_, ih hxs⟩
      intro b hb
      rcases mem_insertEvent.mp hb with rfl | hb
      · exact hle
      · exact hx b hb
    · rename_i hgt
      refine List.pairwise_cons.mpr ⟨?_, h⟩
      intro b hb
      rcases List.mem_cons.mp hb with rfl | hb
      · omega
      · have := hx b hb
        omega

/-- Every event of the pending list after an insertion is still in the
future, provided the inserted one is. -/
theorem le_time_of_mem_insertEvent {a e : Event} {l : List Event} {t : ℤ}
    (ht : t ≤ e.time) (hl : ∀ b ∈ l, t ≤ b.time) (ha : a ∈ insertEvent e l) :
    t ≤ a.time := by
  rcases mem_insertEvent.mp ha with rfl | ha
  · exact ht
  · exact hl a ha

/-- `MInv` is monotone in the current time. -/
theorem MInv.mono {t t' : ℤ} {m : MachineState} (h : MInv t m) (ht : t ≤ t') :
    MInv t' m := by
  obtain ⟨h1, h2, h3, h4⟩ := h
  refine ⟨by omega, h2, h3, fun hpc => ?_⟩
  obtain ⟨ha, hb, hc, hd⟩ := h4 hpc
  refine ⟨ha, hb, hc, fun t0 ht0 => ?_⟩
  obtain ⟨he, hf⟩ := hd t0 ht0
  exact ⟨by omega, by omega⟩

/-- One resume of a Machine preserves the global invariant. -/
theorem machineFire_inv {i : ℕ} {s : SimState} (h : SimInv s) :
    SimInv (machineFire i s) := by
  obtain ⟨h1, h2, h3, h4⟩ := h
  unfold machineFire
  split
  · exact ⟨h1, h2, h3, h4⟩
  · rename_i m hm
    have hmem : m ∈ s.machines := List.getElem?_mem hm
    obtain ⟨hi1, hi2, hi3, hi4⟩ := h3 m hmem
    split
    · -- pc = .check
      rename_i hpc
      obtain ⟨hc1, hc2, hc3, hc4⟩ := hi4 hpc
      split
      · -- queue empty: passivate
        refine ⟨h1, h2, ?_, h4⟩
        intro m' hm'
        rcases List.mem_or_eq_of_mem_set hm' with hm' | rfl
        · exact h3 m' hm'
        · refine ⟨hi1, hi2, ?_, ?_⟩ <;> dsimp only
          · intro hcontra
            rw [hpc] at hcontra
            cases hcontra
          · intro _
            exact ⟨hc1, hc2, hc3, hc4⟩
      · split
        · -- dead empty-pop branch
          exact ⟨h1, h2, h3, h4⟩
        · rename_i p qrest hq
          split
          · exact ⟨h1, h2, h3, h4⟩
          · rename_i pa hpa
            have hPInv := h4 pa (List.getElem?_mem hpa)
            refine ⟨?_, ?_, ?_, h4⟩ <;> dsimp only
            · intro e he
              refine le_time_of_mem_insertEvent ?_ h1 he
              dsimp only
              have := hPInv.1
              omega
            · exact pairwise_insertEvent h2
            · intro m' hm'
              rcases List.mem_or_eq_of_mem_set hm' with hm' | rfl
              · exact h3 m' hm'
              · refine ⟨?_, ?_, ?_, ?_⟩ <;> dsimp only
                · exact le_refl _
                · exact hi2
                · intro _
                  refine ⟨rfl, by simp, ?_⟩
                  refine ⟨m.firstStart.getD s.now, rfl, ?_, ?_⟩ <;> dsimp only
                  · cases hfs : m.firstStart with
                    | none => simp [hfs]
                    | some t0 =>
                      simp only [hfs, Option.getD_some]
                      exact (hc4 t0 hfs).1
                  · cases hfs : m.firstStart with
                    | none =>
                      simp only [hfs, Option.getD_none]
                      have := hc3 hfs
                      omega
                    | some t0 =>
                      simp only [hfs, Option.getD_some]
                      have := (hc4 t0 hfs).2
                      omega
                · intro hcontra
                  cases hcontra
    · -- pc = .procDone
      rename_i hpc
      obtain ⟨hd1, hd2, hd3⟩ := hi3 hpc
      split
      · exact ⟨h1, h2, h3, h4⟩
      · rename_i p hp
        obtain ⟨t0, ht0, ht0le, htop⟩ := hd3
        refine ⟨?_, ?_, ?_, ?_⟩ <;> dsimp only
        · intro e he
          refine le_time_of_mem_insertEvent ?_
            (fun b hb => le_time_of_mem_insertEvent ?_ h1 hb) he <;>
            dsimp only <;> omega
        · exact pairwise_insertEvent (pairwise_insertEvent h2)
        · intro m' hm'
          rcases List.mem_or_eq_of_mem_set hm' with hm' | rfl
          · exact h3 m' hm'
          · refine ⟨?_, ?_, ?_, ?_⟩ <;> dsimp only
            · exact hi1
            · omega
            · intro hcontra
              cases hcontra
            · intro _
              refine ⟨rfl, rfl, ?_, ?_⟩
              · intro hfs
                rw [ht0] at hfs
                cases hfs
              · intro t0' ht0'
                rw [ht0] at ht0'
                injection ht0' with ht0'
                subst ht0'
                refine ⟨by omega, by omega⟩
        · intro p' hp'
          unfold setPartSStatus at hp'
          split at hp'
          · exact h4 p' hp'
          · rename_i pa hpa
            rcases List.mem_or_eq_of_mem_set hp' with hp' | rfl
            · exact h4 p' hp'
            · have := h4 pa (List.getElem?_mem hpa)
              exact ⟨this.1, this.2⟩

/-- One resume of a Part preserves the global invariant. -/
theorem partFire_inv {i : ℕ} {s : SimState} (h : SimInv s) :
    SimInv (partFire i s) := by
  obtain ⟨h1, h2, h3, h4⟩ := h
  unfold partFire
  split
  · exact ⟨h1, h2, h3, h4⟩
  · rename_i p hp
    obtain ⟨hp1, hp2⟩ := h4 p (List.getElem?_mem hp)
    split
    · -- routing exhausted: terminate
      refine ⟨h1, h2, h3, ?_⟩
      intro p' hp'
      rcases List.mem_or_eq_of_mem_set hp' with hp' | rfl
      · exact h4 p' hp'
      · exact ⟨hp1, hp2⟩
    · rename_i mid d rest hseq
      split
      · exact ⟨h1, h2, h3, h4⟩
      · rename_i m hm
        obtain ⟨g1, g2, g3, g4⟩ := h3 m (List.getElem?_mem hm)
        have hd : (0:ℤ) ≤ d := hp2 (mid, d) (by rw [hseq]; exact List.mem_cons_self _ _)
        have hrest : ∀ st ∈ rest, (0:ℤ) ≤ st.2 := fun st hst =>
          hp2 st (by rw [hseq]; exact List.mem_cons_of_mem _ hst)
        by_cases hpass : m.sstatus = .passive <;>
          simp only [hpass, if_pos, if_neg, reduceCtorEq, reduceIte] <;>
          refine ⟨?_, ?_, ?_, ?_⟩ <;> dsimp only
        · intro e he
          exact le_time_of_mem_insertEvent (by dsimp only; omega) h1 he
        · exact pairwise_insertEvent h2
        · intro m' hm'
          rcases List.mem_or_eq_of_mem_set hm' with hm' | rfl
          · exact h3 m' hm'
          · exact ⟨g1, g2, g3, g4⟩
        · intro p' hp'
          rcases List.mem_or_eq_of_mem_set hp' with hp' | rfl
          · exact h4 p' hp'
          · exact ⟨hd, hrest⟩
        · exact h1
        · exact h2
        · intro m' hm'
          rcases List.mem_or_eq_of_mem_set hm' with hm' | rfl
          · exact h3 m' hm'
          · exact ⟨g1, g2, g3, g4⟩
        · intro p' hp'
          rcases List.mem_or_eq_of_mem_set hp' with hp' | rfl
          · exact h4 p' hp'
          · exact ⟨hd, hrest⟩

/-- One publisher iteration preserves the global invariant. -/
theorem pubFire_inv {s : SimState} (h : SimInv s) : SimInv (pubFire s) := by
  obtain ⟨h1, h2, h3, h4⟩ := h
  unfold pubFire
  refine ⟨?_, ?_, ?_, h4⟩ <;> dsimp only
  · intro e he
    exact le_time_of_mem_insertEvent (by dsimp only; omega) h1 he
  · exact pairwise_insertEvent h2
  · intro m' hm'
    rw [List.map_map] at hm'
    rcases List.mem_map.mp hm' with ⟨m, hmm, rfl⟩
    obtain ⟨g1, g2, g3, g4⟩ := h3 m hmm
    simp only [Function.comp]
    unfold pubMachineSnapshot
    split
    · exact ⟨g1, g2, g3, g4⟩
    · exact ⟨g1, g2, g3, g4⟩

/-- One scheduler step preserves the global invariant. -/
theorem stepSim_inv {s : SimState} (h : SimInv s) : SimInv (stepSim s) := by
  unfold stepSim
  split
  · exact h
  · split
    · exact h
    · rename_i e rest hev
      obtain ⟨h1, h2, h3, h4⟩ := h
      rw [hev] at h1 h2
      have hnow : s.now ≤ e.time := h1 e (List.mem_cons_self _ _)
      obtain ⟨hrest1, hrest2⟩ := List.pairwise_cons.mp h2
      have hs1 : SimInv { s with now := e.time, events := rest } :=
        ⟨hrest1, hrest2, fun m hm => (h3 m hm).mono hnow, h4⟩
      rcases e.pid with i | i | _
      · exact machineFire_inv hs1
      · exact partFire_inv hs1
      · exact pubFire_inv hs1

/-- Unfolding a run on the right: one more step after `n` steps. -/
theorem runN_succ (s : SimState) (n : ℕ) : runN s (n + 1) = stepSim (runN s n) := by
  induction n generalizing s with
  | zero => rfl
  | succ n ih =>
    have hstep : runN s (n + 2) = runN (stepSim s) (n + 1) := rfl
    rw [hstep, ih (stepSim s)]
    rfl

/-- The global invariant holds along every run from a well-formed state. -/
theorem simInv_runN {s : SimState} (h : SimInv s) (n : ℕ) : SimInv (runN s n) := by
  induction n generalizing s with
  | zero => exact h
  | succ n ih => exact ih (stepSim_inv h)

/-- Updating a list entry is invisible to a projection the update preserves. -/
theorem map_set_of_eq {α β : Type} {l : List α} {i : ℕ} {a b : α} {f : α → β}
    (hl : l[i]? = some a) (hf : f b = f a) : (l.set i b).map f = l.map f := by
  apply List.ext_getElem?
  intro n
  rw [List.getElem?_map, List.getElem?_map]
  by_cases hn : i = n
  · subst hn
    have hlen : i < l.length := by
      rcases List.getElem?_eq_some.mp hl with ⟨hlen, _⟩
      exact hlen
    rw [List.getElem?_set_self hlen, hl]
    simp [hf]
  · rw [List.getElem?_set_ne hn]

/-- A Part's resume never changes any machine's core fields or cycle_time
(it only appends to a queue and activates a passive machine). -/
theorem partFire_machines_frame (j : ℕ) (s : SimState) :
    ((partFire j s).machines.map machineCore = s.machines.map machineCore) ∧
    ((partFire j s).machines.map MachineState.cycle_time
       = s.machines.map MachineState.cycle_time) := by
  unfold partFire
  split
  · exact ⟨rfl, rfl⟩
  · rename_i p hp
    split
    · exact ⟨rfl, rfl⟩
    · rename_i mid d rest hseq
      split
      · exact ⟨rfl, rfl⟩
      · rename_i m hm
        by_cases hpass : m.sstatus = .passive <;>
          simp only [hpass, reduceIte] <;>
          exact ⟨map_set_of_eq hm rfl, map_set_of_eq hm rfl⟩

/-- A publisher iteration never changes any machine's core fields. -/
theorem pubFire_machines_frame (s : SimState) :
    (pubFire s).machines.map machineCore = s.machines.map machineCore := by
  unfold pubFire
  dsimp only
  rw [List.map_map, List.map_map]
  apply List.map_congr_left
  intro m hm
  simp only [Function.comp]
  unfold pubMachineSnapshot
  split <;> rfl

/-- A Machine resume never decreases any machine's operating_time. -/
theorem machineFire_operating_mono {j : ℕ} {s : SimState} (h : SimInv s) {i : ℕ}
    {m m' : MachineState} (hm : s.machines[i]? = some m)
    (hm' : (machineFire j s).machines[i]? = some m') :
    m.operating_time ≤ m'.operating_time := by
  obtain ⟨h1, h2, h3, h4⟩ := h
  unfold machineFire at hm'
  split at hm'
  · rw [hm] at hm'
    injection hm' with hm'
    rw [hm']
  · rename_i mj hmj
    have hlen : j < s.machines.length := by
      rcases List.getElem?_eq_some.mp hmj with ⟨hlen, _⟩
      exact hlen
    split at hm'
    · -- pc = .check
      split at hm'
      · -- passivate
        dsimp only at hm'
        by_cases hij : j = i
        · subst hij
          rw [List.getElem?_set_self hlen] at hm'
          rw [hm] at hmj
          injection hmj with hmj
          injection hm' with hm'
          rw [← hm', hmj]
        · rw [List.getElem?_set_ne hij] at hm'
          rw [hm] at hm'
          injection hm' with hm'
          rw [hm']
      · split at hm'
        · -- dead empty-pop branch
          rw [hm] at hm'
          injection hm' with hm'
          rw [hm']
        · split at hm'
          · rw [hm] at hm'
            injection hm' with hm'
            rw [hm']
          · -- start cycle
            dsimp only at hm'
            by_cases hij : j = i
            · subst hij
              rw [List.getElem?_set_self hlen] at hm'
              rw [hm] at hmj
              injection hmj with hmj
              injection hm' with hm'
              rw [← hm', hmj]
            · rw [List.getElem?_set_ne hij] at hm'
              rw [hm] at hm'
              injection hm' with hm'
              rw [hm']
    · -- pc = .procDone
      split at hm'
      · rw [hm] at hm'
        injection hm' with hm'
        rw [hm']
      · -- finish cycle
        dsimp only at hm'
        by_cases hij : j = i
        · subst hij
          rw [List.getElem?_set_self hlen] at hm'
          rw [hm] at hmj
          injection hmj with hmj
          subst hmj
          injection hm' with hm'
          rw [← hm']
          dsimp only
          have := (h3 m (List.getElem?_mem hm)).1
          omega
        · rw [List.getElem?_set_ne hij] at hm'
          rw [hm] at hm'
          injection hm' with hm'
          rw [hm']

/-- A Part resume changes no machine's core fields or cycle_time. -/
theorem partFire_operating_eq {j : ℕ} {s : SimState} {i : ℕ}
    {m m' : MachineState} (hm : s.machines[i]? = some m)
    (hm' : (partFire j s).machines[i]? = some m') :
    machineCore m' = machineCore m ∧ m'.cycle_time = m.cycle_time := by
  obtain ⟨hcore, hct⟩ := partFire_machines_frame j s
  have h1 : ((partFire j s).machines.map machineCore)[i]? = some (machineCore m') := by
    rw [List.getElem?_map, hm']
    rfl
  have h2 : ((partFire j s).machines.map MachineState.cycle_time)[i]?
      = some (m'.cycle_time) := by
    rw [List.getElem?_map, hm']
    rfl
  rw [hcore, List.getElem?_map, hm] at h1
  rw [hct, List.getElem?_map, hm] at h2
  injection h1 with h1
  injection h2 with h2
  exact ⟨h1.symm, h2.symm⟩

/-- A publisher iteration changes no machine's core fields. -/
theorem pubFire_core_eq {s : SimState} {i : ℕ}
    {m m' : MachineState} (hm : s.machines[i]? = some m)
    (hm' : (pubFire s).machines[i]? = some m') :
    machineCore m' = machineCore m := by
  have hcore := pubFire_machines_frame s
  have h1 : ((pubFire s).machines.map machineCore)[i]? = some (machineCore m') := by
    rw [List.getElem?_map, hm']
    rfl
  rw [hcore, List.getElem?_map, hm] at h1
  injection h1 with h1
  exact h1.symm

/-- One scheduler step never decreases a machine's operating_time. -/
theorem stepSim_operating_mono {s : SimState} (h : SimInv s) {i : ℕ}
    {m m' : MachineState} (hm : s.machines[i]? = some m)
    (hm' : (stepSim s).machines[i]? = some m') :
    m.operating_time ≤ m'.operating_time := by
  unfold stepSim at hm'
  split at hm'
  · rw [hm] at hm'
    injection hm' with hm'
    rw [hm']
  · split at hm'
    · rw [hm] at hm'
      injection hm' with hm'
      rw [hm']
    · rename_i e rest hev
      obtain ⟨h1, h2, h3, h4⟩ := h
      rw [hev] at h1 h2
      have hnow : s.now ≤ e.time := h1 e (List.mem_cons_self _ _)
      obtain ⟨hrest1, hrest2⟩ := List.pairwise_cons.mp h2
      have hs1 : SimInv { s with now := e.time, events := rest } :=
        ⟨hrest1, hrest2, fun mm hmm => (h3 mm hmm).mono hnow, h4⟩
      rcases hpid : e.pid with k | k | _ <;> rw [hpid] at hm' <;>
        simp only [dispatch] at hm'
      · exact machineFire_operating_mono hs1 hm hm'
      · have := (partFire_operating_eq (s := { s with now := e.time, events := rest })
          hm hm').1
        unfold machineCore at this
        injection this with _ this
        injection this with _ this
        injection this with this _
        rw [this]
      · have := pubFire_core_eq (s := { s with now := e.time, events := rest }) hm hm'
        unfold machineCore at this
        injection this with _ this
        injection this with _ this
        injection this with this _
        rw [this]

/-- With enough fuel, `n` is below ten to its digit count. -/
theorem numDigitsCore_bound {fuel n : ℕ} (h : n ≤ fuel) :
    n < 10 ^ numDigitsCore fuel n := by
  induction fuel generalizing n with
  | zero =>
    simp only [numDigitsCore]
    omega
  | succ fuel ih =>
    simp only [numDigitsCore]
    split
    · rename_i hlt
      simpa using hlt
    · rename_i hge
      have hrec := ih (n := n / 10) (by omega)
      have hdm := Nat.div_add_mod n 10
      have hm : n % 10 < 10 := Nat.mod_lt _ (by omega)
      rw [pow_succ]
      omega

/-- `n` is below ten to the power of its decimal digit count. -/
theorem lt_ten_pow_numDigits (n : ℕ) : n < 10 ^ numDigits n :=
  numDigitsCore_bound (le_refl n)

/-- Within one part family, the derived identities are injective in the
per-family index. -/
theorem partId_injective (f : ℕ) : Function.Injective (partId f) := by
  intro i j h
  unfold partId at h
  by_cases hf : f = 0
  · subst hf
    simpa using h
  · have hi := lt_ten_pow_numDigits i
    have hj := lt_ten_pow_numDigits j
    rcases Nat.lt_trichotomy (numDigits i) (numDigits j) with hlt | heq | hgt
    · exfalso
      have hp : 10 ^ numDigits i * 10 ≤ 10 ^ numDigits j := by
        rw [← pow_succ]
        exact Nat.pow_le_pow_right (by omega) (by omega)
      have key : f * 10 ^ numDigits i + 10 ^ numDigits i ≤ f * 10 ^ numDigits j := by
        calc f * 10 ^ numDigits i + 10 ^ numDigits i
            = (f + 1) * 10 ^ numDigits i := by ring
          _ ≤ (f * 10) * 10 ^ numDigits i := Nat.mul_le_mul (by omega) (le_refl _)
          _ = f * (10 ^ numDigits i * 10) := by ring
          _ ≤ f * 10 ^ numDigits j := Nat.mul_le_mul (le_refl _) hp
      omega
    · rw [heq] at h
      omega
    · exfalso
      have hp : 10 ^ numDigits j * 10 ≤ 10 ^ numDigits i := by
        rw [← pow_succ]
        exact Nat.pow_le_pow_right (by omega) (by omega)
      have key : f * 10 ^ numDigits j + 10 ^ numDigits j ≤ f * 10 ^ numDigits i := by
        calc f * 10 ^ numDigits j + 10 ^ numDigits j
            = (f + 1) * 10 ^ numDigits j := by ring
          _ ≤ (f * 10) * 10 ^ numDigits j := Nat.mul_le_mul (by omega) (le_refl _)
          _ = f * (10 ^ numDigits j * 10) := by ring
          _ ≤ f * 10 ^ numDigits i := Nat.mul_le_mul (le_refl _) hp
      omega

/-- C9 (amended): for every production plan, the PartGenerator instantiates
exactly `quantity` Part processes per entry (so the total count is the sum of
the quantities), and the derived identities are pairwise distinct within each
entry.  Distinctness across the whole plan does not hold in general (see the
counterexample): `int(str(family) + str(index))` can collide across entries
with different family numbers. -/
theorem part_generator_per_entry (plan : List PlanEntry) :
    (genParts plan).length = (plan.map PlanEntry.quantity).sum ∧
    ∀ e ∈ plan, (genParts [e]).length = e.quantity ∧
      ((genParts [e]).map PartState.part_number).Nodup := by
  refine ⟨by simp [genParts, Function.comp_def], ?_⟩
  intro e he
  refine ⟨by simp [genParts], ?_⟩
  simp only [genParts, List.flatMap_cons, List.flatMap_nil, List.append_nil, List.map_map]
  exact List.Nodup.map (fun a b hab => partId_injective e.part_family_number hab)
    (List.nodup_range _)

/-- C9 counterexample: on `collidingPlan`, part 10 of family 1 and part 0 of
family 11 both receive the derived identity 110, so the identities are not
pairwise distinct across the whole plan. -/
theorem part_identity_counterexample :
    ¬ ((genParts collidingPlan).map PartState.part_number).Nodup := by decide

/-- A Machine resume never enters the empty-pop error branch: the queue
emptiness guard protects the pop. -/
theorem machineFire_no_emptyPop {i : ℕ} {s : SimState}
    (h : s.err ≠ some SimError.emptyPop) :
    (machineFire i s).err ≠ some SimError.emptyPop := by
  unfold machineFire
  split
  · simp
  · split
    · split
      · exact h
      · rename_i hne
        split
        · rename_i hq
          exfalso
          rw [hq] at hne
          simp at hne
        · split
          · simp
          · exact h
    · split
      · simp
      · exact h

/-- A Part resume never raises the empty-pop error. -/
theorem partFire_no_emptyPop {i : ℕ} {s : SimState}
    (h : s.err ≠ some SimError.emptyPop) :
    (partFire i s).err ≠ some SimError.emptyPop := by
  unfold partFire
  split
  · simp
  · split
    · exact h
    · split
      · simp
      · exact h

/-- No scheduler step ever raises the empty-pop error. -/
theorem stepSim_no_emptyPop {s : SimState}
    (h : s.err ≠ some SimError.emptyPop) :
    (stepSim s).err ≠ some SimError.emptyPop := by
  unfold stepSim
  split
  · exact h
  · split
    · exact h
    · rename_i e rest hev
      rcases e.pid with k | k | _
      · exact machineFire_no_emptyPop h
      · exact partFire_no_emptyPop h
      · exact h

/-- The Scenario A initial state is well-formed. -/
theorem simInv_scenarioA : SimInv scenarioA := by
  refine ⟨?_, ?_, ?_, ?_⟩ <;>
    simp [scenarioA, SimInv, MInv, PInv, initMachine, initPart]

/-- C3: in every reachable execution (every run from a state not already in
the empty-pop error), no step ever attempts to pop a machine queue while the
queue is empty: the loop guard (passivate while the queue is empty, re-check
on wake) makes the `EmptyQueueError` branch unreachable. -/
theorem machine_never_pops_empty (s : SimState) (n : ℕ)
    (h : s.err ≠ some SimError.emptyPop) :
    (runN s n).err ≠ some SimError.emptyPop := by
  induction n generalizing s with
  | zero => exact h
  | succ n ih => exact ih (stepSim s) (stepSim_no_emptyPop h)

/-- Witness for C3 at Scenario A. -/
theorem machine_never_pops_empty_witness :
    (runN scenarioA 10).err ≠ some SimError.emptyPop :=
  machine_never_pops_empty scenarioA 10 (by decide)

/-- C4: along every run from a well-formed state, every machine's
operating_time is nonnegative, zero before its first cycle start, bounded by
the elapsed simulated time since its first cycle start, and monotonically
non-decreasing from each state to the next. -/
theorem operating_time_bounds (s : SimState) (h : SimInv s) (n i : ℕ)
    (m : MachineState) (hm : (runN s n).machines[i]? = some m) :
    0 ≤ m.operating_time ∧
    (m.firstStart = none → m.operating_time = 0) ∧
    (∀ t0, m.firstStart = some t0 → m.operating_time ≤ (runN s n).now - t0) ∧
    (∀ m', (runN s (n + 1)).machines[i]? = some m' →
      m.operating_time ≤ m'.operating_time) := by
  obtain ⟨h1, h2, h3, h4⟩ := simInv_runN h n
  obtain ⟨g1, g2, g3, g4⟩ := h3 m (List.getElem?_mem hm)
  refine ⟨g2, ?_, ?_, ?_⟩
  · intro hfs
    cases hpc : m.pc with
    | check => exact (g4 hpc).2.2.1 hfs
    | procDone =>
      obtain ⟨-, -, t0, ht0, -, -⟩ := g3 hpc
      rw [hfs] at ht0
      cases ht0
  · intro t0 ht0
    cases hpc : m.pc with
    | check => exact ((g4 hpc).2.2.2 t0 ht0).2
    | procDone =>
      obtain ⟨-, -, t0', ht0', hle, hop⟩ := g3 hpc
      rw [ht0] at ht0'
      injection ht0' with ht0'
      subst ht0'
      omega
  · intro m' hm'
    rw [runN_succ] at hm'
    exact stepSim_operating_mono (simInv_runN h n) hm hm'

/-- Witness for C4: Scenario A after five steps, where machine 0 has
accumulated operating_time 2 with first cycle start 0 at time 2. -/
theorem operating_time_bounds_witness :
    ∃ m, (runN scenarioA 5).machines[0]? = some m ∧ 0 ≤ m.operating_time ∧
      m.firstStart = some 0 ∧ m.operating_time ≤ (runN scenarioA 5).now - 0 := by
  have hm : (runN scenarioA 5).machines[0]? = some
      { machine_id := 0, machine_queue := [], parts := 1, cycle_time_start := 0,
        cycle_time := 2, operating_time := 2, machine_status := 0, current_part := none,
        pc := .check, sstatus := .scheduled, firstStart := some 0 } := by decide
  have h := operating_time_bounds scenarioA simInv_scenarioA 5 0 _ hm
  exact ⟨_, hm, h.1, rfl, h.2.2.1 0 rfl⟩

/-- C10: in every state of a run from a well-formed state (i.e. at every
suspension point, which is the only place other processes can observe a
machine), a machine's status is busy (1) if and only if it has a current
occupant. -/
theorem machine_status_iff_occupant (s : SimState) (h : SimInv s) (n : ℕ) :
    ∀ m ∈ (runN s n).machines, (m.machine_status = 1 ↔ m.current_part.isSome) := by
  intro m hm
  obtain ⟨h1, h2, h3, h4⟩ := simInv_runN h n
  obtain ⟨g1, g2, g3, g4⟩ := h3 m hm
  cases hpc : m.pc with
  | check =>
    obtain ⟨ha, hb, -⟩ := g4 hpc
    simp [ha, hb]
  | procDone =>
    obtain ⟨ha, hb, -⟩ := g3 hpc
    simp [ha, hb]

/-- Witness for C10 at Scenario A after three steps (machine 0 busy). -/
theorem machine_status_iff_occupant_witness :
    ∃ m, (runN scenarioA 3).machines[0]? = some m ∧
      (m.machine_status = 1 ↔ m.current_part.isSome) := by
  have hm : (runN scenarioA 3).machines[0]? = some
      { machine_id := 0, machine_queue := [], parts := 0, cycle_time_start := 0,
        cycle_time := 0, operating_time := 0, machine_status := 1,
        current_part := some 0, pc := .procDone, sstatus := .scheduled,
        firstStart := some 0 } := by decide
  exact ⟨_, hm, machine_status_iff_occupant scenarioA simInv_scenarioA 3 _
    (List.getElem?_mem hm)⟩

/-- C5 (amended): on every publisher iteration, the row forwarded for each
tracked machine carries the machine's stored machine_id and parts count, a
cycle_time recomputed as `now - cycle_time_start` exactly when the machine is
busy (the stored cycle_time otherwise), and an operating_time equal to the
stored counter PLUS the recomputed cycle time when busy (the stored counter
alone otherwise) — the forwarded operating_time is not the stored counter
value for a busy machine. -/
theorem publisher_snapshot_fields (s : SimState) (i : ℕ) (m : MachineState)
    (hm : s.machines[i]? = some m) :
    ∃ rows, (pubFire s).trace = s.trace ++ rows ∧
      rows[i]? = some (s.now, TEvent.publishRow m.machine_id m.parts
        (if m.machine_status = 1 then s.now - m.cycle_time_start else m.cycle_time)
        (m.operating_time +
          if m.machine_status = 1 then s.now - m.cycle_time_start else 0)) := by
  refine ⟨_, rfl, ?_⟩
  rw [List.getElem?_map, List.getElem?_map, hm]
  by_cases hst : m.machine_status = 1 <;> simp [pubMachineSnapshot, hst]

/-- C5 counterexample: for a busy machine with stored operating_time 0 whose
cycle started at time 0, the publisher at time 2 forwards operating_time 2,
not the stored counter value 0. -/
theorem publisher_snapshot_counterexample :
    (pubMachineSnapshot 2 busyMachine).1.operating_time ≠ busyMachine.operating_time := by
  decide

/-- Witness for the amended C5 at a concrete busy machine. -/
theorem publisher_snapshot_fields_witness :
    ∃ rows, (pubFire { pubStepState with now := 2, events := [] }).trace
        = ({ pubStepState with now := 2, events := [] } : SimState).trace ++ rows ∧
      rows[0]? = some (2, TEvent.publishRow 0 0 2 2) := by
  have h := publisher_snapshot_fields { pubStepState with now := 2, events := [] } 0
    busyMachine rfl
  simpa [busyMachine, initMachine, pubStepState] using h

/-- C6: a publisher iteration leaves the part list untouched and, for every
tracked machine, changes no field except cycle_time: machine_id, queue,
parts, cycle_time_start, operating_time, machine_status, current_part (and
the continuation and scheduling status) are preserved, and cycle_time is
overwritten with `now - cycle_time_start` exactly when the machine is busy
(an idle machine is left completely unchanged). -/
theorem publisher_frame (s : SimState) (i : ℕ) (m : MachineState)
    (hm : s.machines[i]? = some m) :
    (pubFire s).parts = s.parts ∧
    (pubFire s).machines[i]? = some (pubMachineSnapshot s.now m).2 ∧
    ((pubMachineSnapshot s.now m).2.machine_id = m.machine_id ∧
     (pubMachineSnapshot s.now m).2.machine_queue = m.machine_queue ∧
     (pubMachineSnapshot s.now m).2.parts = m.parts ∧
     (pubMachineSnapshot s.now m).2.cycle_time_start = m.cycle_time_start ∧
     (pubMachineSnapshot s.now m).2.operating_time = m.operating_time ∧
     (pubMachineSnapshot s.now m).2.machine_status = m.machine_status ∧
     (pubMachineSnapshot s.now m).2.current_part = m.current_part ∧
     (pubMachineSnapshot s.now m).2.pc = m.pc ∧
     (pubMachineSnapshot s.now m).2.sstatus = m.sstatus) ∧
    (m.machine_status = 1 →
      (pubMachineSnapshot s.now m).2.cycle_time = s.now - m.cycle_time_start) ∧
    (¬ m.machine_status = 1 → (pubMachineSnapshot s.now m).2 = m) := by
  refine ⟨rfl, ?_, ?_, ?_, ?_⟩
  · unfold pubFire
    dsimp only
    rw [List.map_map, List.getElem?_map, hm]
    rfl
  · by_cases hst : m.machine_status = 1 <;> simp [pubMachineSnapshot, hst]
  · intro hst
    simp [pubMachineSnapshot, hst]
  · intro hst
    simp [pubMachineSnapshot, hst]

/-- Witness for C6 at a concrete busy machine. -/
theorem publisher_frame_witness :
    (pubFire pubStepState).parts = pubStepState.parts ∧
    (pubMachineSnapshot pubStepState.now busyMachine).2.operating_time
      = busyMachine.operating_time := by
  have h := publisher_frame pubStepState 0 busyMachine rfl
  obtain ⟨hparts, -, ⟨-, -, -, -, hop, -⟩, -, -⟩ := h
  exact ⟨hparts, hop⟩

/-- C7 counterexample: firing the telemetry publisher (a process other than
the machine's own loop) changes machine 0's cycle_time field, so not every
mutation of a Machine's fields is performed by its own process loop. -/
theorem machine_mutation_counterexample :
    pubStepState.events.head?.map Event.pid = some PId.publisher ∧
    (stepSim pubStepState).machines.map MachineState.cycle_time
      ≠ pubStepState.machines.map MachineState.cycle_time := by
  decide

/-- A Machine resume leaves every other machine's entry unchanged. -/
theorem machineFire_other {j k : ℕ} (s : SimState) (hkj : ¬ k = j) :
    (machineFire j s).machines[k]? = s.machines[k]? := by
  have hjk : j ≠ k := fun h => hkj h.symm
  unfold machineFire
  split
  · rfl
  · split
    · split
      · dsimp only
        rw [List.getElem?_set_ne hjk]
      · split
        · rfl
        · split
          · rfl
          · dsimp only
            rw [List.getElem?_set_ne hjk]
    · split
      · rfl
      · dsimp only
        rw [List.getElem?_set_ne hjk]

/-- C7 (amended): the counters parts, cycle_time_start, operating_time,
machine_status and current_part of every Machine are mutated only by that
machine's own process loop: a step firing a Part leaves all machines' core
fields and cycle_time unchanged, a step firing the publisher leaves all core
fields unchanged (it may rewrite cycle_time of busy machines), and a step
firing machine `j` leaves every machine other than `j` entirely unchanged. -/
theorem machine_core_mutated_only_by_own_loop (s : SimState) (e : Event)
    (rest : List Event) (hev : s.events = e :: rest) (herr : s.err = none) :
    (∀ j, e.pid = PId.part j →
      (stepSim s).machines.map machineCore = s.machines.map machineCore ∧
      (stepSim s).machines.map MachineState.cycle_time
        = s.machines.map MachineState.cycle_time) ∧
    (e.pid = PId.publisher →
      (stepSim s).machines.map machineCore = s.machines.map machineCore) ∧
    (∀ j, e.pid = PId.machine j → ∀ k, ¬ k = j →
      (stepSim s).machines[k]? = s.machines[k]?) := by
  unfold stepSim
  rw [herr, hev]
  simp only [Option.isSome_none, Bool.false_eq_true, if_false]
  refine ⟨?_, ?_, ?_⟩
  · intro j hj
    rw [hj]
    simp only [dispatch]
    exact partFire_machines_frame j _
  · intro hj
    rw [hj]
    simp only [dispatch]
    exact pubFire_machines_frame _
  · intro j hj k hkj
    rw [hj]
    simp only [dispatch]
    exact machineFire_other _ hkj

/-- Witness for the amended C7: a publisher step preserves the core fields. -/
theorem machine_core_mutated_witness :
    (stepSim pubStepState).machines.map machineCore
      = pubStepState.machines.map machineCore := by
  have h := machine_core_mutated_only_by_own_loop pubStepState ⟨1, PId.publisher⟩ [] rfl rfl
  exact h.2.1 rfl

/-- C8: one resume of a Part either (with routing steps remaining) enters the
target machine's queue at the tail, passivates itself, and activates the
target machine if and only if that machine is passive — the activation being
the only event it ever schedules, for the machine and at the current time,
so the Part never holds simulated time itself — or (with no steps remaining)
terminates without scheduling anything. -/
theorem part_process_spec (s : SimState) (i : ℕ) (p : PartState)
    (hp : s.parts[i]? = some p) :
    (∀ e ∈ (partFire i s).events, e ∈ s.events ∨
       (e.time = s.now ∧ ∃ mid, e.pid = PId.machine mid)) ∧
    (p.machining_sequence = [] →
       (partFire i s).events = s.events ∧
       ((partFire i s).parts[i]?).map PartState.sstatus = some SStatus.terminated) ∧
    (∀ mid d rest, p.machining_sequence = (mid, d) :: rest →
       ∀ m, s.machines[mid]? = some m →
         ((partFire i s).machines[mid]?).map MachineState.machine_queue
             = some (m.machine_queue ++ [i]) ∧
         ((partFire i s).parts[i]?).map PartState.sstatus = some SStatus.passive ∧
         (m.sstatus = SStatus.passive →
            (partFire i s).events = insertEvent ⟨s.now, PId.machine mid⟩ s.events) ∧
         (¬ m.sstatus = SStatus.passive → (partFire i s).events = s.events)) := by
  have hplen : i < s.parts.length := by
    rcases List.getElem?_eq_some.mp hp with ⟨hl, -⟩
    exact hl
  unfold partFire
  split
  · rename_i hq
    rw [hp] at hq
    cases hq
  · rename_i p' hp'
    rw [hp] at hp'
    injection hp' with hp'
    subst hp'
    split
    · rename_i hseq
      refine ⟨?_, ?_, ?_⟩
      · intro e he
        exact Or.inl he
      · intro _
        refine ⟨rfl, ?_⟩
        dsimp only
        rw [List.getElem?_set_self hplen]
        rfl
      · intro mid d rest hseq2 m hm
        rw [hseq] at hseq2
        cases hseq2
    · rename_i mid1 d1 rest1 hseq
      split
      · rename_i hmach
        refine ⟨?_, ?_, ?_⟩
        · intro e he
          exact Or.inl he
        · intro hcontra
          rw [hseq] at hcontra
          cases hcontra
        · intro mid d rest hseq2 m hm
          rw [hseq] at hseq2
          injection hseq2 with h1 h2
          injection h1 with hmid hd
          rw [← hmid] at hm
          rw [hmach] at hm
          cases hm
      · rename_i m1 hm1
        have hmlen : mid1 < s.machines.length := by
          rcases List.getElem?_eq_some.mp hm1 with ⟨hl, -⟩
          exact hl
        by_cases hpass : m1.sstatus = SStatus.passive <;>
          simp only [hpass, reduceIte] <;>
          refine ⟨?_, ?_, ?_⟩
        · intro e he
          rcases mem_insertEvent.mp he with rfl | he
          · exact Or.inr ⟨rfl, mid1, rfl⟩
          · exact Or.inl he
        · intro hcontra
          rw [hseq] at hcontra
          cases hcontra
        · intro mid d rest hseq2 m hm
          rw [hseq] at hseq2
          injection hseq2 with h1 h2
          injection h1 with hmid hd
          subst hmid
          rw [hm1] at hm
          injection hm with hm
          subst hm
          refine ⟨?_, ?_, fun _ => rfl, fun hc => absurd hpass hc⟩
          · dsimp only
            rw [List.getElem?_set_self hmlen]
            rfl
          · dsimp only
            rw [List.getElem?_set_self hplen]
            rfl
        · intro e he
          exact Or.inl he
        · intro hcontra
          rw [hseq] at hcontra
          cases hcontra
        · intro mid d rest hseq2 m hm
          rw [hseq] at hseq2
          injection hseq2 with h1 h2
          injection h1 with hmid hd
          subst hmid
          rw [hm1] at hm
          injection hm with hm
          subst hm
          refine ⟨?_, ?_, fun hc => absurd hc hpass, fun _ => trivial⟩
          · dsimp only
            rw [List.getElem?_set_self hmlen]
            rfl
          · dsimp only
            rw [List.getElem?_set_self hplen]
            rfl

/-- Witness for C1: the queue re-check recorded at time 0 satisfies the
disjunction of re-check times. -/
theorem scenarioA_behavior_witness : (0 : ℤ) = 0 ∨ (0 : ℤ) = 5 :=
  scenarioA_behavior.2.2.2.2.2.1 (0, TEvent.checkQueue 0) (by decide) rfl

/-- Witness for C8 at a concrete one-machine, one-part state. -/
theorem part_process_spec_witness :
    ((partFire 0 partStepState).parts[0]?).map PartState.sstatus = some SStatus.passive ∧
    (partFire 0 partStepState).events
      = insertEvent ⟨0, PId.machine 0⟩ partStepState.events := by
  have h := part_process_spec partStepState 0
    (initPart "Part 0" 100000 1000000 [(0, 2)]) rfl
  obtain ⟨-, -, h3⟩ := h
  obtain ⟨-, hb, hc, -⟩ := h3 0 2 [] rfl { initMachine 0 with sstatus := .passive } rfl
  exact ⟨hb, hc rfl⟩

/-- Witness for the amended C9 on the colliding plan. -/
theorem part_generator_per_entry_witness :
    (genParts collidingPlan).length = (collidingPlan.map PlanEntry.quantity).sum ∧
    (genParts [⟨"Part A", 1, 11, []⟩]).length = 11 ∧
    ((genParts [⟨"Part A", 1, 11, []⟩]).map PartState.part_number).Nodup := by
  have h := part_generator_per_entry collidingPlan
  have h2 := h.2 ⟨"Part A", 1, 11, []⟩ (List.mem_cons_self _ _)
  exact ⟨h.1, h2.1, h2.2⟩
